import Mathlib

/-!
Verification development for the loader/executor core of the tidb-binlog
drainer (executor.go of pkg/loader, and the loopback-sync plugin).

Shallow embedding: the DML data model and the SQL statements are modelled
symbolically; the downstream database is modelled by an oracle (`DbOracle`)
deciding whether `Begin`, each `Exec` and `Commit` succeed, and how many rows
the mark-table update affects.  Each executor operation returns the list of
observable events it performed (begin / exec / commit / rollback / hook and
refresh invocations), its result, and the updated loopback-sync state (the
`Index` counter is mutated by `begin`).

Helpers of this repository whose bodies are not part of the sources at hand
(`mergeByPrimaryKey`, `splitDMLs`, `loopbacksync.UpdateMark`,
`removeOrphanCols`) are modelled from the spec; each such definition is marked
`Modelled from the spec:` in its doc comment.
-/

namespace TidbBinlog

/-- Column values are opaque downstream SQL values; modelled as strings. -/
abbrev Value := String

/-- Operation type of a DML record (loader's `InsertDMLType`, `UpdateDMLType`,
`DeleteDMLType`). -/
inductive DMLType where
  | insert
  | update
  | delete
deriving DecidableEq, Repr

/-- tableInfo: ordered column list and primary-key columns. -/
structure TableInfo where
  columns : List String
  primaryKeys : List String
deriving DecidableEq, Repr

/-- DML: a single row change record.  `values` is the post-image column
mapping, `oldValues` the pre-image (used by updates), `info` the cached table
metadata. -/
structure DML where
  database : String
  table : String
  tp : DMLType
  values : List (String × Value)
  oldValues : List (String × Value)
  info : TableInfo
deriving DecidableEq, Repr

/-- quoteSchema: the backtick-quoted `schema.table` string. -/
def tnOf (schema table : String) : String :=
  "`" ++ schema ++ "`.`" ++ table ++ "`"

/-- `DML.TableName()`: `quoteSchema(Database, Table)`, used as map key in the
executor. -/
def DML.TableName (d : DML) : String :=
  tnOf d.database d.table

/-- Symbolic SQL statements issued by the executor.  The per-DML statements
(`sql()`, `deleteSQL()`, `replaceSQL()`) are kept abstract: the executor never
inspects their text, so they are represented by the DML they are generated
from.  The bulk statements carry the batch they are built from. -/
inductive Stmt where
  | sqlOf (d : DML)
  | deleteSQLOf (d : DML)
  | replaceSQLOf (d : DML)
  | bulkDeleteSQL (ds : List DML)
  | bulkReplaceSQL (ds : List DML)
  | updateMark (id : Int)
deriving DecidableEq, Repr

/-- Observable events of an executor operation. -/
inductive Event where
  | beginTx
  | exec (s : Stmt)
  | commitTx
  | rollbackTx
  | hookCall (res : Option String)
  | refreshCall (schema : String) (table : String)
deriving DecidableEq, Repr

/-- A registered value in the `ExecutorExtend` hook registry.  `notExtend`
models a value failing the `val.(ExecutorExtend)` type assertion (skipped);
`extend e` models an extension whose `ExtendTxn` returns error `e`. -/
inductive ExtHook where
  | notExtend
  | extend (err : Option String)
deriving DecidableEq, Repr

/-- loopbacksync.LoopBackSync: the loopback-control state shared with the
plugins. -/
structure LoopBackSync where
  loopbackControl : Bool
  supportPlugin : Bool
  index : Int
  channelID : Int
  markTableName : String
  migrationIPs : List String
  recordID : Int
  hooks : List ExtHook
deriving DecidableEq, Repr

/-- The executor's own fields (the `*gosql.DB` handle and the metrics
histogram are not modelled; the DB is replaced by the oracle below). -/
structure Executor where
  batchSize : Nat
  workerCount : Int
  info : Option LoopBackSync
deriving DecidableEq, Repr

/-- `newExecutor`: fresh executor with the default knobs; the sync info is NOT
set (Go: nil pointer). -/
def newExecutor : Executor :=
  { batchSize := 128, workerCount := 16, info := none }

/-- Downstream database behaviour: whether `Begin` succeeds, whether a given
statement executes without error, whether `Commit` succeeds, and the affected
row count reported for the mark-table update. -/
structure DbOracle where
  beginOk : Bool
  execOk : Stmt → Bool
  commitOk : Bool
  markRowsAffected : Nat

/-- Result of an executor operation.  `nilPanic` models a Go nil-pointer
dereference (a runtime panic, not an `error` return). -/
inductive Res where
  | ok
  | err (msg : String)
  | nilPanic
deriving DecidableEq, Repr

/-- Modelled from the spec: `loopbacksync.UpdateMark` issues
`UPDATE mark_table SET val = val + 1 WHERE id = ?` on the transaction and
returns an error when the update fails or affects zero rows. -/
def updateMark (o : DbOracle) (id : Int) : List Event × Option String :=
  if o.execOk (.updateMark id) then
    if o.markRowsAffected = 0 then
      ([.exec (.updateMark id)], some "affected rows is zero")
    else
      ([.exec (.updateMark id)], none)
  else
    ([.exec (.updateMark id)], some "failed to update mark data")

/-- Outcome of `begin`: the events performed, `none` result for a live Tx or
`some msg` for an error return, and the (possibly Index-incremented) loopback
info. -/
structure BeginOut where
  events : List Event
  res : Option String
  info' : Option LoopBackSync
deriving DecidableEq, Repr

/-- `executor.begin()`: open a transaction; when the loopback info is set and
`LoopbackControl` is on, update the mark row
`atomic.AddInt64(&Index, 1) % workerCount` and roll back on failure.  Go's
`%` on int64 truncates toward zero, i.e. `Int.tmod` (int64 overflow of the
counter is not reachable in the claims considered and is not modelled). -/
def Executor.begin (e : Executor) (o : DbOracle) : BeginOut :=
  if o.beginOk then
    match e.info with
    | none => { events := [.beginTx], res := none, info' := none }
    | some i =>
      if i.loopbackControl then
        let id := (i.index + 1).tmod e.workerCount
        let m := updateMark o id
        match m.2 with
        | some msg =>
          { events := .beginTx :: m.1 ++ [.rollbackTx]
            res := some msg
            info' := some { i with index := i.index + 1 } }
        | none =>
          { events := .beginTx :: m.1
            res := none
            info' := some { i with index := i.index + 1 } }
      else
        { events := [.beginTx], res := none, info' := some i }
  else
    { events := [], res := some "begin failed", info' := e.info }

/-- The `hook.Range` loop over the `ExecutorExtend` registry: values failing
the type assertion are skipped, each extension invocation is an event, and the
range stops at the first extension returning an error (which is the value the
shared `err` variable holds after the loop). -/
def runHooks : List ExtHook → List Event × Option String
  | [] => ([], none)
  | .notExtend :: rest => runHooks rest
  | .extend none :: rest =>
    let r := runHooks rest
    (.hookCall none :: r.1, r.2)
  | .extend (some s) :: _ => ([.hookCall (some s)], some s)

/-- Outcome of a bulk or single execution. -/
structure ExecOut where
  events : List Event
  res : Res
  info' : Option LoopBackSync
deriving DecidableEq, Repr

/-- `executor.bulkDelete`: no-op on empty input; otherwise begin, run the
`ExecutorExtend` chain when `SupportPlugin` (reading `e.info.SupportPlugin`
dereferences the info pointer: nil info panics), concatenate the delete
statements into one multi-statement exec, roll back on exec error, else
commit.  The hook chain's error is only logged. -/
def Executor.bulkDelete (e : Executor) (o : DbOracle) (deletes : List DML) : ExecOut :=
  if deletes = [] then
    { events := [], res := .ok, info' := e.info }
  else
    let b := e.begin o
    match b.res with
    | some msg => { events := b.events, res := .err msg, info' := b.info' }
    | none =>
      match b.info' with
      | none => { events := b.events, res := .nilPanic, info' := none }
      | some i =>
        let hk := if i.supportPlugin then runHooks i.hooks else ([], none)
        let stmt := Stmt.bulkDeleteSQL deletes
        if o.execOk stmt then
          if o.commitOk then
            { events := b.events ++ hk.1 ++ [.exec stmt, .commitTx]
              res := .ok, info' := some i }
          else
            { events := b.events ++ hk.1 ++ [.exec stmt, .commitTx]
              res := .err "commit failed", info' := some i }
        else
          { events := b.events ++ hk.1 ++ [.exec stmt, .rollbackTx]
            res := .err "exec failed", info' := some i }

/-- `executor.bulkReplace`: no-op on empty input; otherwise begin, run the
hook chain when `SupportPlugin`, build one `REPLACE INTO ... VALUES ...` for
the whole batch (using `inserts[0].info`'s column order), roll back on exec
error, else commit. -/
def Executor.bulkReplace (e : Executor) (o : DbOracle) (inserts : List DML) : ExecOut :=
  if inserts = [] then
    { events := [], res := .ok, info' := e.info }
  else
    let b := e.begin o
    match b.res with
    | some msg => { events := b.events, res := .err msg, info' := b.info' }
    | none =>
      match b.info' with
      | none => { events := b.events, res := .nilPanic, info' := none }
      | some i =>
        let hk := if i.supportPlugin then runHooks i.hooks else ([], none)
        let stmt := Stmt.bulkReplaceSQL inserts
        if o.execOk stmt then
          if o.commitOk then
            { events := b.events ++ hk.1 ++ [.exec stmt, .commitTx]
              res := .ok, info' := some i }
          else
            { events := b.events ++ hk.1 ++ [.exec stmt, .commitTx]
              res := .err "commit failed", info' := some i }
        else
          { events := b.events ++ hk.1 ++ [.exec stmt, .rollbackTx]
            res := .err "exec failed", info' := some i }

/-- The statements `singleExec` issues for one DML: with safe mode an update
is rewritten to its pre-image delete followed by its post-image replace, an
insert to a replace; otherwise the DML's own statement is issued. -/
def safeStmts (safeMode : Bool) (d : DML) : List Stmt :=
  if safeMode ∧ d.tp = .update then [.deleteSQLOf d, .replaceSQLOf d]
  else if safeMode ∧ d.tp = .insert then [.replaceSQLOf d]
  else [.sqlOf d]

/-- Run a sequence of statements through `tx.autoRollbackExec`: stop (and roll
back) at the first exec error. -/
def execStmts (o : DbOracle) : List Stmt → List Event × Option String
  | [] => ([], none)
  | s :: rest =>
    if o.execOk s then
      let r := execStmts o rest
      (.exec s :: r.1, r.2)
    else
      ([.exec s, .rollbackTx], some "exec failed")

/-- `executor.singleExec`: begin, run the hook chain when `SupportPlugin`
(nil info panics), issue each DML's statements one by one (safe-mode
rewrites), return at the first exec error, else commit. -/
def Executor.singleExec (e : Executor) (o : DbOracle) (dmls : List DML)
    (safeMode : Bool) : ExecOut :=
  let b := e.begin o
  match b.res with
  | some msg => { events := b.events, res := .err msg, info' := b.info' }
  | none =>
    match b.info' with
    | none => { events := b.events, res := .nilPanic, info' := none }
    | some i =>
      let hk := if i.supportPlugin then runHooks i.hooks else ([], none)
      let r := execStmts o (dmls.flatMap (safeStmts safeMode))
      match r.2 with
      | some msg =>
        { events := b.events ++ hk.1 ++ r.1, res := .err msg, info' := some i }
      | none =>
        { events := b.events ++ hk.1 ++ r.1 ++ [.commitTx]
          res := if o.commitOk then .ok else .err "commit failed"
          info' := some i }

/-- Modelled from the spec: `splitDMLs` chops the input into contiguous
sub-slices of up to `size` items, preserving order (spec requires
`size ≥ 1`; sizes below 1 behave as 1 here so the recursion terminates). -/
def splitDMLs : List DML → Nat → List (List DML)
  | [], _ => []
  | d :: rest, size =>
    (d :: rest.take (size - 1)) :: splitDMLs (rest.drop (size - 1)) size
termination_by l _ => l.length
decreasing_by
  simp only [List.length_drop, List.length_cons]
  omega

/-- The sequential collapse of `splitExecDML`'s errgroup fan-out: every chunk
runs (the errgroup does not cancel siblings: the derived context is
discarded), the traces are concatenated, the first failing chunk's error is
the returned one, and the loopback state is threaded through the chunks'
`begin` calls. -/
def runChunks (e : Executor) (o : DbOracle)
    (ex : Executor → DbOracle → List DML → ExecOut) :
    List (List DML) → List Event × Res × Option LoopBackSync
  | [] => ([], .ok, e.info)
  | c :: rest =>
    let out := ex e o c
    let r := runChunks { e with info := out.info' } o ex rest
    (out.events ++ r.1, (match out.res with | .ok => r.2.1 | x => x), r.2.2)

/-- Composite merge key of a DML: schema, table and the primary-key tuple
looked up in the post-image values. -/
def dmlKey (d : DML) : String × String × List (Option Value) :=
  (d.database, d.table, d.info.primaryKeys.map (fun c => d.values.lookup c))

abbrev MKey := String × String × List (Option Value)

/-- Find the entry for a key in the merge accumulator. -/
def assocFind (k : MKey) : List (MKey × DML) → Option DML
  | [] => none
  | (k', d) :: rest => if k' = k then some d else assocFind k rest

/-- Remove the entry for a key from the merge accumulator. -/
def assocErase (k : MKey) : List (MKey × DML) → List (MKey × DML)
  | [] => []
  | (k', d) :: rest => if k' = k then rest else (k', d) :: assocErase k rest

/-- Overwrite the entry for a key in the merge accumulator. -/
def assocSet (k : MKey) (d : DML) : List (MKey × DML) → List (MKey × DML)
  | [] => []
  | (k', d') :: rest =>
    if k' = k then (k, d) :: rest else (k', d') :: assocSet k d rest

/-- Modelled from the spec: the collapse table of `mergeByPrimaryKey` for a
key already holding `prior` when `next` arrives.  `none` is `ErrMergeConflict`
(an impossible combination), `some none` removes the key (Insert then Delete),
`some (some d)` is the new surviving DML for the key.  Insert followed by
Update survives as an Insert carrying the update's values; Delete followed by
Insert collapses to an Update (the spec's conservative choice). -/
def collapse (prior : DMLType) (next : DML) : Option (Option DML) :=
  match prior, next.tp with
  | .insert, .update => some (some { next with tp := .insert })
  | .insert, .delete => some none
  | .update, .update => some (some next)
  | .update, .delete => some (some next)
  | .delete, .insert => some (some { next with tp := .update })
  | _, _ => none

/-- Modelled from the spec: scan the DMLs in input order, keeping per key the
single surviving operation according to the collapse table; `none` is
`ErrMergeConflict`. -/
def mergeList (acc : List (MKey × DML)) : List DML → Option (List (MKey × DML))
  | [] => some acc
  | d :: rest =>
    let k := dmlKey d
    match assocFind k acc with
    | none => mergeList (acc ++ [(k, d)]) rest
    | some prior =>
      match collapse prior.tp d with
      | none => none
      | some none => mergeList (assocErase k acc) rest
      | some (some d') => mergeList (assocSet k d' acc) rest

/-- The per-operation buckets produced by the merger (the Go `types` map from
DMLType to merged list). -/
structure MergedTypes where
  deletes : List DML
  inserts : List DML
  updates : List DML
deriving DecidableEq, Repr

/-- Modelled from the spec: merge by primary key, then regroup the survivors
by operation type. -/
def mergeByPrimaryKey (dmls : List DML) : Option MergedTypes :=
  (mergeList [] dmls).map fun acc =>
    let survivors := acc.map Prod.snd
    { deletes := survivors.filter (fun d => d.tp == .delete)
      inserts := survivors.filter (fun d => d.tp == .insert)
      updates := survivors.filter (fun d => d.tp == .update) }

/-- Invariant of the merge accumulator: every entry is stored under its DML's
composite key, and the keys are pairwise distinct. -/
def accWf (acc : List (MKey × DML)) : Prop :=
  (∀ p ∈ acc, dmlKey p.2 = p.1) ∧ (acc.map Prod.fst).Nodup

/-- The delete phase of `execTableBatch`: split the merged delete bucket by
`batchSize` and run the chunks through `bulkDelete`. -/
def Executor.deletePhase (e : Executor) (o : DbOracle) (m : MergedTypes) :
    List Event × Res × Option LoopBackSync :=
  runChunks e o (fun e o c => e.bulkDelete o c) (splitDMLs m.deletes e.batchSize)

/-- The insert phase of `execTableBatch`: merged insert bucket through
`bulkReplace`. -/
def Executor.insertPhase (e : Executor) (o : DbOracle) (m : MergedTypes) :
    List Event × Res × Option LoopBackSync :=
  runChunks e o (fun e o c => e.bulkReplace o c) (splitDMLs m.inserts e.batchSize)

/-- The update phase of `execTableBatch`: merged update bucket through
`bulkReplace`. -/
def Executor.updatePhase (e : Executor) (o : DbOracle) (m : MergedTypes) :
    List Event × Res × Option LoopBackSync :=
  runChunks e o (fun e o c => e.bulkReplace o c) (splitDMLs m.updates e.batchSize)

/-- `executor.execTableBatch`: nothing on empty input; otherwise merge by
primary key, then the delete bucket via `bulkDelete`, then (only when the
delete phase succeeded) the insert bucket and then the update bucket via
`bulkReplace`, stopping at the first failing phase. -/
def Executor.execTableBatch (e : Executor) (o : DbOracle) (dmls : List DML) : ExecOut :=
  if dmls = [] then
    { events := [], res := .ok, info' := e.info }
  else
    match mergeByPrimaryKey dmls with
    | none => { events := [], res := .err "merge conflict", info' := e.info }
    | some m =>
      let dp := e.deletePhase o m
      match dp.2.1 with
      | .ok =>
        let e1 : Executor := { e with info := dp.2.2 }
        let ip := e1.insertPhase o m
        match ip.2.1 with
        | .ok =>
          let e2 : Executor := { e1 with info := ip.2.2 }
          let up := e2.updatePhase o m
          { events := dp.1 ++ ip.1 ++ up.1, res := up.2.1, info' := up.2.2 }
        | r => { events := dp.1 ++ ip.1, res := r, info' := ip.2.2 }
      | r => { events := dp.1, res := r, info' := dp.2.2 }

/-- `infoschema.ErrColumnNotExists.Code()` (MySQL `ER_BAD_FIELD_ERROR`). -/
def errColumnNotExistsCode : Nat := 1054

/-- A downstream SQL error as seen by `pkgsql.GetSQLErrCode`: `code = none`
models an error that is not a `*mysql.MySQLError`. -/
structure SqlErr where
  code : Option Nat
deriving DecidableEq, Repr

/-- `tryRefreshTableErr`: the error's SQL code exists and is the
column-not-exists code. -/
def tryRefreshTableErr (e : SqlErr) : Bool :=
  e.code == some errColumnNotExistsCode

/-- Modelled from the spec: `removeOrphanCols` removes from the DML's value
mapping the columns that are not present in the fresh tableInfo's column
list. -/
def removeOrphanCols (info : TableInfo) (d : DML) : DML :=
  { d with values := d.values.filter (fun p => info.columns.contains p.1) }

/-- The per-DML effect of a successful refresh in `singleExecRetry`: when the
cached column-list length differs from the fresh one, orphan columns are
removed; the `info` reference is rebound in both cases. -/
def applyInfo (info : TableInfo) (d : DML) : DML :=
  let d' := if d.info.columns.length ≠ info.columns.length
            then removeOrphanCols info d else d
  { d' with info := info }

/-- Find a cached tableInfo by table name in the `name2info` map. -/
def cacheFind (n : String) : List (String × TableInfo) → Option TableInfo
  | [] => none
  | (n', i) :: rest => if n' = n then some i else cacheFind n rest

/-- The schema-refresh loop of `singleExecRetry`: for each DML, consult the
`name2info` cache keyed by `TableName()`; on a miss invoke the refresh
callback (recording the call); a callback failure leaves the DML untouched
(and the cache unchanged, so a later DML of the same table retries); on
success cache the fresh info and rebind the DML via `applyInfo`.  Returns the
updated DMLs and the list of callback invocations. -/
def refreshGo (f : String → String → Option TableInfo)
    (cache : List (String × TableInfo)) :
    List DML → List DML × List (String × String)
  | [] => ([], [])
  | d :: rest =>
    match cacheFind d.TableName cache with
    | some info =>
      let r := refreshGo f cache rest
      (applyInfo info d :: r.1, r.2)
    | none =>
      match f d.database d.table with
      | none =>
        let r := refreshGo f cache rest
        (d :: r.1, (d.database, d.table) :: r.2)
      | some info =>
        let r := refreshGo f ((d.TableName, info) :: cache) rest
        (applyInfo info d :: r.1, (d.database, d.table) :: r.2)

/-- The refresh pass starting from the empty `name2info` map. -/
def refreshAll (f : String → String → Option TableInfo) (dmls : List DML) :
    List DML × List (String × String) :=
  refreshGo f [] dmls

/-- One retry attempt of `singleExecRetry` after `singleExec` returned
`execErr`: when the error is the column-not-exists code and a refresh
callback is configured, run the refresh pass; in every case the attempt
returns the original `execErr` (so the outer retry driver decides).  Returns
the (possibly rebound) DMLs, the refresh calls made, and the attempt's
error. -/
def singleExecAttempt (f : Option (String → String → Option TableInfo))
    (execErr : Option SqlErr) (dmls : List DML) :
    List DML × List (String × String) × Option SqlErr :=
  match execErr with
  | none => (dmls, [], none)
  | some err =>
    if tryRefreshTableErr err then
      match f with
      | some fn =>
        let r := refreshAll fn dmls
        (r.1, r.2, some err)
      | none => (dmls, [], some err)
    else (dmls, [], some err)

/-- The per-DML result of a refresh pass when table names do not collide:
a failing callback leaves the DML untouched, a successful one rebinds it. -/
def refreshOne (f : String → String → Option TableInfo) (d : DML) : DML :=
  match f d.database d.table with
  | none => d
  | some info => applyInfo info d

/-- A DDL record of a loader transaction. -/
structure DDLev where
  database : String
  table : String
  sql : String
deriving DecidableEq, Repr

/-- loader.Txn: the transaction handed to `FilterTxn` (the opaque `Metadata`
field is only read in the fatal branch and is not modelled). -/
structure Txn where
  dmls : List DML
  ddl : Option DDLev
  appliedTS : Int
  ip : String
deriving DecidableEq, Repr

/-- `strings.EqualFold`, modelled as character-wise equality after
lower-casing. -/
def eqFold (a b : String) : Bool :=
  a.data.map Char.toLower == b.data.map Char.toLower

/-- `findLoopBackMark`: scan the DMLs for one whose table name case-folds to
the mark table's name; the error component is constantly nil in the source. -/
def findLoopBackMark (dmls : List DML) (info : LoopBackSync) :
    Bool × Option String :=
  (dmls.any (fun d => eqFold d.table info.markTableName), none)

/-- Result of `FilterTxn`: either the fatal cyclic-replication abort
(`log.Fatal`), or the returned `(txn, error)` pair. -/
inductive FilterResult where
  | fatal
  | ret (txn : Option Txn) (err : Option String)
deriving DecidableEq, Repr

/-- `Plugin.FilterTxn`: drop (nil, nil) on nil inputs, on a DDL transaction
and on a transaction carrying a mark-table DML; abort fatally when the
transaction's origin IP case-folds to a configured migration IP; otherwise
blank every DML's `Database` field and return the transaction. -/
def filterTxn (txn : Option Txn) (info : Option LoopBackSync) : FilterResult :=
  match txn, info with
  | none, _ => .ret none none
  | some _, none => .ret none none
  | some t, some i =>
    if t.ddl.isSome then .ret none none
    else
      let f := findLoopBackMark t.dmls i
      match f.2 with
      | some msg => .ret (some t) (some msg)
      | none =>
        if f.1 then .ret none none
        else if i.migrationIPs.any (fun ip => eqFold t.ip ip) then .fatal
        else
          .ret (some { t with dmls := t.dmls.map (fun d => { d with database := "" }) }) none

/-- Whether an event is the execution of a bulk-delete statement. -/
def Event.isDeleteExec : Event → Bool
  | .exec (.bulkDeleteSQL _) => true
  | _ => false

/-- Whether an event is the execution of a bulk-replace statement. -/
def Event.isReplaceExec : Event → Bool
  | .exec (.bulkReplaceSQL _) => true
  | _ => false

/-- The per-DML statement executed by an event, when there is one (the mark
update, begin/commit/rollback and hook events carry no DML statement). -/
def Event.dmlStmt : Event → Option Stmt
  | .exec (.sqlOf d) => some (.sqlOf d)
  | .exec (.deleteSQLOf d) => some (.deleteSQLOf d)
  | .exec (.replaceSQLOf d) => some (.replaceSQLOf d)
  | _ => none

/-- Whether a registered hook value does NOT make the chain stop: it either
fails the type assertion or its `ExtendTxn` succeeds. -/
def ExtHook.ok : ExtHook → Bool
  | .extend (some _) => false
  | _ => true

/-- The event a registered hook value contributes when the chain reaches it
and continues past it. -/
def hookEv : ExtHook → Option Event
  | .extend none => some (.hookCall none)
  | _ => none

/-- Replace the hook registry of the executor's loopback info. -/
def Executor.setHooks (e : Executor) (h : List ExtHook) : Executor :=
  { e with info := e.info.map (fun i => { i with hooks := h }) }

/-- The claimed behaviour of the refresh pass for one (input, output) DML
pair: a failed refresh leaves the DML unchanged; a fresh column list that
differs from the cached one has the extraneous columns removed from the value
mapping and the info rebound. -/
def c5RefreshSpec (f : String → String → Option TableInfo) (p : DML × DML) : Bool :=
  match f p.1.database p.1.table with
  | none => p.2 == p.1
  | some fresh =>
    if p.1.info.columns = fresh.columns then true
    else
      p.2.values == p.1.values.filter (fun q => fresh.columns.contains q.1)
        && p.2.info == fresh

/-- Formalisation of claim C5 at a given refresh callback and failed batch:
the callback is invoked once per distinct table (no duplicate invocations,
every table covered), each DML is rewritten per `c5RefreshSpec`, and the
attempt's error is still returned. -/
def c5ClaimAt (f : String → String → Option TableInfo) (dmls : List DML) : Prop :=
  (singleExecAttempt (some f) (some ⟨some errColumnNotExistsCode⟩) dmls).2.1.Nodup
  ∧ (∀ d ∈ dmls, (d.database, d.table)
      ∈ (singleExecAttempt (some f) (some ⟨some errColumnNotExistsCode⟩) dmls).2.1)
  ∧ (∀ p ∈ dmls.zip
        (singleExecAttempt (some f) (some ⟨some errColumnNotExistsCode⟩) dmls).1,
      c5RefreshSpec f p = true)
  ∧ (singleExecAttempt (some f) (some ⟨some errColumnNotExistsCode⟩) dmls).2.2
      = some ⟨some errColumnNotExistsCode⟩

/-- The actual behaviour of the refresh pass for one (input, output) DML
pair: the info is rebound on every successful refresh, and extraneous columns
are removed exactly when the column-list LENGTHS differ. -/
def c5RefreshSpecAmended (f : String → String → Option TableInfo) (p : DML × DML) : Bool :=
  match f p.1.database p.1.table with
  | none => p.2 == p.1
  | some fresh =>
    p.2.info == fresh
      && (if p.1.info.columns.length = fresh.columns.length
          then p.2.values == p.1.values
          else p.2.values == p.1.values.filter (fun q => fresh.columns.contains q.1))

/-- Sample table metadata with single column `a`. -/
def tiA : TableInfo := { columns := ["a"], primaryKeys := ["a"] }

/-- Sample table metadata with single column `b`. -/
def tiB : TableInfo := { columns := ["b"], primaryKeys := ["b"] }

/-- Sample DML on table `t` with cached column `a`. -/
def dT : DML :=
  { database := "db", table := "t", tp := .insert
    values := [("a", "1")], oldValues := [], info := tiA }

/-- Sample DML on table `u` with cached column `a`. -/
def dU : DML :=
  { database := "db", table := "u", tp := .insert
    values := [("a", "1")], oldValues := [], info := tiA }

/-- Sample refresh callback: fails for table `t`, returns the `b`-schema for
any other table. -/
def c5f : String → String → Option TableInfo :=
  fun _ table => if table = "t" then none else some tiB

/-- Sample loopback info with loopback control and plugin support on. -/
def lbs : LoopBackSync :=
  { loopbackControl := true, supportPlugin := true, index := 41
    channelID := 7, markTableName := "retl._drainer_repl_mark"
    migrationIPs := ["10.0.0.1"], recordID := 16
    hooks := [.extend none, .extend (some "hook boom"), .extend none] }

/-- Sample executor carrying `lbs`. -/
def exeL : Executor := { batchSize := 2, workerCount := 16, info := some lbs }

/-- Sample executor carrying a quiet loopback info (no loopback control, no
plugin support). -/
def exeQ : Executor :=
  { batchSize := 2, workerCount := 16
    info := some { lbs with loopbackControl := false, supportPlugin := false } }

/-- Oracle on which every downstream operation succeeds. -/
def oracleOk : DbOracle :=
  { beginOk := true, execOk := fun _ => true, commitOk := true
    markRowsAffected := 1 }

/-- Oracle on which the mark-table update reports zero affected rows. -/
def oracleMark0 : DbOracle :=
  { beginOk := true, execOk := fun _ => true, commitOk := true
    markRowsAffected := 0 }

/-- Sample delete DML on table `t`, key value `1`. -/
def dDel1 : DML :=
  { database := "db", table := "t", tp := .delete
    values := [("a", "1")], oldValues := [], info := tiA }

/-- Sample insert DML on table `t`, key value `2`. -/
def dIns2 : DML :=
  { database := "db", table := "t", tp := .insert
    values := [("a", "2")], oldValues := [], info := tiA }

/-- Sample update DML on table `t`, key value `3`. -/
def dUpd3 : DML :=
  { database := "db", table := "t", tp := .update
    values := [("a", "3")], oldValues := [("a", "0")], info := tiA }

/-- Sample transaction touching only table `t`. -/
def txnT : Txn :=
  { dmls := [dIns2, dUpd3], ddl := none, appliedTS := 5, ip := "10.1.1.1" }

/-! Theorems. -/

/-- C7: on the empty DML list, `execTableBatch`, `bulkDelete` and
`bulkReplace` all return success with an empty event trace — in particular no
`begin` is issued, so no transaction is opened and no statement is sent
downstream. -/
theorem c7_empty_input_noop (e : Executor) (o : DbOracle) :
    e.execTableBatch o [] = { events := [], res := .ok, info' := e.info }
    ∧ e.bulkDelete o [] = { events := [], res := .ok, info' := e.info }
    ∧ e.bulkReplace o [] = { events := [], res := .ok, info' := e.info }
    ∧ Event.beginTx ∉ (e.execTableBatch o []).events
    ∧ Event.beginTx ∉ (e.bulkDelete o []).events
    ∧ Event.beginTx ∉ (e.bulkReplace o []).events := by
  refine ⟨rfl, rfl, rfl, ?_, ?_, ?_⟩ <;>
    simp [Executor.execTableBatch, Executor.bulkDelete, Executor.bulkReplace]

/-- C8: for any DML list and any batch size of at least 1, the split
operation's chunks concatenate back to the input in order and every chunk has
at most `N` elements. -/
theorem c8_split_partition (L : List DML) (N : Nat) (h : 1 ≤ N) :
    (splitDMLs L N).flatten = L ∧ ∀ c ∈ splitDMLs L N, c.length ≤ N := by
  constructor
  · clear h
    induction L, N using splitDMLs.induct with
    | case1 n => simp [splitDMLs]
    | case2 d rest size ih =>
      rw [splitDMLs]
      simp [ih]
  · induction L, N using splitDMLs.induct with
    | case1 n => simp [splitDMLs]
    | case2 d rest size ih =>
      rw [splitDMLs]
      intro c hc
      rcases List.mem_cons.mp hc with rfl | hc
      · simp only [List.length_cons]
        have := List.length_take_le (size - 1) rest
        omega
      · exact ih h c hc

/-- C8 witness: concrete split of a three-element list at batch size 2. -/
theorem c8_split_partition_witness :
    1 ≤ 2
    ∧ ((splitDMLs [dDel1, dIns2, dUpd3] 2).flatten = [dDel1, dIns2, dUpd3]
        ∧ ∀ c ∈ splitDMLs [dDel1, dIns2, dUpd3] 2, c.length ≤ 2) :=
  ⟨by decide, c8_split_partition [dDel1, dIns2, dUpd3] 2 (by decide)⟩

/-- C3: with loopback control enabled, `begin` executes the mark-table update
at row id `(Index + 1) % workerCount` on the new transaction and increments
the stored Index; when that update fails or affects zero rows, `begin` rolls
the transaction back and returns an error instead of a live Tx. -/
theorem c3_begin_loopback (e : Executor) (o : DbOracle) (i : LoopBackSync)
    (hinfo : e.info = some i) (hlc : i.loopbackControl = true)
    (hb : o.beginOk = true) :
    Event.exec (.updateMark ((i.index + 1).tmod e.workerCount)) ∈ (e.begin o).events
    ∧ (e.begin o).info' = some { i with index := i.index + 1 }
    ∧ ((o.execOk (.updateMark ((i.index + 1).tmod e.workerCount)) = false
          ∨ o.markRowsAffected = 0) →
        (e.begin o).res ≠ none
        ∧ (e.begin o).events.getLast? = some .rollbackTx) := by
  by_cases hex : o.execOk (.updateMark ((i.index + 1).tmod e.workerCount)) = true
  · by_cases hm : o.markRowsAffected = 0
    · simp [Executor.begin, hinfo, hb, hlc, updateMark, hex, hm]
    · simp [Executor.begin, hinfo, hb, hlc, updateMark, hex, hm]
  · simp only [Bool.not_eq_true] at hex
    simp [Executor.begin, hinfo, hb, hlc, updateMark, hex]

/-- C3 witness: concrete `begin` on a loopback-enabled executor whose mark
update affects zero rows. -/
theorem c3_begin_loopback_witness :
    exeL.info = some lbs ∧ lbs.loopbackControl = true ∧ oracleMark0.beginOk = true
    ∧ (Event.exec (.updateMark ((lbs.index + 1).tmod exeL.workerCount))
         ∈ (exeL.begin oracleMark0).events
      ∧ (exeL.begin oracleMark0).info' = some { lbs with index := lbs.index + 1 }
      ∧ ((oracleMark0.execOk (.updateMark ((lbs.index + 1).tmod exeL.workerCount)) = false
            ∨ oracleMark0.markRowsAffected = 0) →
          (exeL.begin oracleMark0).res ≠ none
          ∧ (exeL.begin oracleMark0).events.getLast? = some .rollbackTx)) :=
  ⟨rfl, rfl, rfl, c3_begin_loopback exeL oracleMark0 lbs rfl rfl rfl⟩

/-- C9: on an executor whose sync info was never set, `bulkDelete`,
`bulkReplace` and `singleExec` with a non-empty batch dereference the nil
info when reading `SupportPlugin` (a panic, not an error return), while
`begin` itself guards the nil info and returns a live transaction; a fresh
`newExecutor` has no sync info. -/
theorem c9_nil_info_panics (e : Executor) (o : DbOracle) (dmls : List DML) (sm : Bool)
    (hnil : e.info = none) (hne : dmls ≠ []) (hb : o.beginOk = true) :
    (e.bulkDelete o dmls).res = .nilPanic
    ∧ (e.bulkReplace o dmls).res = .nilPanic
    ∧ (e.singleExec o dmls sm).res = .nilPanic
    ∧ (e.begin o).res = none
    ∧ newExecutor.info = none := by
  have hbeg : e.begin o = { events := [.beginTx], res := none, info' := none } := by
    simp [Executor.begin, hnil, hb]
  refine ⟨?_, ?_, ?_, ?_, rfl⟩ <;>
    simp [Executor.bulkDelete, Executor.bulkReplace, Executor.singleExec, hbeg, hne]

/-- C9 witness: the three operations panic on a concrete info-less executor
while `begin` succeeds. -/
theorem c9_nil_info_panics_witness :
    newExecutor.info = none ∧ [dIns2] ≠ ([] : List DML) ∧ oracleOk.beginOk = true
    ∧ ((newExecutor.bulkDelete oracleOk [dIns2]).res = .nilPanic
      ∧ (newExecutor.bulkReplace oracleOk [dIns2]).res = .nilPanic
      ∧ (newExecutor.singleExec oracleOk [dIns2] true).res = .nilPanic
      ∧ (newExecutor.begin oracleOk).res = none
      ∧ newExecutor.info = none) :=
  ⟨rfl, by decide, rfl,
    c9_nil_info_panics newExecutor oracleOk [dIns2] true rfl (by decide) rfl⟩

/-- C10: when `FilterTxn` gets a non-nil transaction and non-nil info and
does not drop it (no DDL, no mark-table DML, origin IP not a migration IP),
it returns the transaction with every DML's `Database` blanked and all other
fields unchanged, with nil error; a DDL transaction, a mark-table
transaction, and nil inputs all yield a nil transaction and nil error. -/
theorem c10_filterTxn_frame (t : Txn) (i : LoopBackSync)
    (hddl : t.ddl = none)
    (hmark : (findLoopBackMark t.dmls i).1 = false)
    (hip : ∀ ip ∈ i.migrationIPs, eqFold t.ip ip = false) :
    filterTxn (some t) (some i)
      = .ret (some { t with dmls := t.dmls.map (fun d => { d with database := "" }) }) none
    ∧ (∀ t' i', t'.ddl ≠ none → filterTxn (some t') (some i') = .ret none none)
    ∧ (∀ t' i', t'.ddl = none → (findLoopBackMark t'.dmls i').1 = true →
        filterTxn (some t') (some i') = .ret none none)
    ∧ (∀ x, filterTxn none x = .ret none none)
    ∧ (∀ t', filterTxn (some t') none = .ret none none) := by
  refine ⟨?_, ?_, ?_, fun x => rfl, fun t' => rfl⟩
  · have hany : i.migrationIPs.any (fun ip => eqFold t.ip ip) = false := by
      simp only [List.any_eq_false]
      intro ip hm
      simp [hip ip hm]
    have hm2 : t.dmls.any (fun d => eqFold d.table i.markTableName) = false := by
      simpa [findLoopBackMark] using hmark
    simp [filterTxn, hddl, findLoopBackMark, hm2, hany]
  · intro t' i' h
    have : t'.ddl.isSome = true := by
      cases hd : t'.ddl with
      | none => exact absurd hd h
      | some _ => rfl
    simp [filterTxn, this]
  · intro t' i' hd hf
    simp [filterTxn, hd, findLoopBackMark] at hf ⊢
    simp [hf]

/-- C10 witness: a concrete transaction on table `t` passes the filter with
its databases blanked; concrete dropped cases. -/
theorem c10_filterTxn_frame_witness :
    txnT.ddl = none
    ∧ (findLoopBackMark txnT.dmls lbs).1 = false
    ∧ (∀ ip ∈ lbs.migrationIPs, eqFold txnT.ip ip = false)
    ∧ filterTxn (some txnT) (some lbs)
        = .ret (some { txnT with
            dmls := txnT.dmls.map (fun d => { d with database := "" }) }) none :=
  ⟨rfl, by decide, by decide,
    (c10_filterTxn_frame txnT lbs rfl (by decide) (by decide)).1⟩

/-- Events of `begin` are only the transaction open, the mark update and a
rollback. -/
theorem begin_events_shape (e : Executor) (o : DbOracle) :
    ∀ ev ∈ (e.begin o).events,
      ev = .beginTx ∨ (∃ id, ev = .exec (.updateMark id)) ∨ ev = .rollbackTx := by
  intro ev hev
  by_cases hb : o.beginOk = true
  · cases hinfo : e.info with
    | none =>
      simp [Executor.begin, hb, hinfo] at hev
      simp [hev]
    | some i =>
      by_cases hlc : i.loopbackControl = true
      · by_cases hex : o.execOk (.updateMark ((i.index + 1).tmod e.workerCount)) = true
        · by_cases hm : o.markRowsAffected = 0
          · simp [Executor.begin, hb, hinfo, hlc, updateMark, hex, hm] at hev
            rcases hev with rfl | rfl | rfl
            · simp
            · exact Or.inr (Or.inl ⟨_, rfl⟩)
            · simp
          · simp [Executor.begin, hb, hinfo, hlc, updateMark, hex, hm] at hev
            rcases hev with rfl | rfl
            · simp
            · exact Or.inr (Or.inl ⟨_, rfl⟩)
        · simp only [Bool.not_eq_true] at hex
          simp [Executor.begin, hb, hinfo, hlc, updateMark, hex] at hev
          rcases hev with rfl | rfl | rfl
          · simp
          · exact Or.inr (Or.inl ⟨_, rfl⟩)
          · simp
      · simp [Executor.begin, hb, hinfo, hlc] at hev
        simp [hev]
  · simp only [Bool.not_eq_true] at hb
    simp [Executor.begin, hb] at hev

/-- `begin` keeps the loopback info set, changing at most the Index. -/
theorem begin_info'_of_some (e : Executor) (o : DbOracle) (i : LoopBackSync)
    (hinfo : e.info = some i) :
    (e.begin o).info' = some i
    ∨ (e.begin o).info' = some { i with index := i.index + 1 } := by
  by_cases hb : o.beginOk = true
  · by_cases hlc : i.loopbackControl = true
    · by_cases hex : o.execOk (.updateMark ((i.index + 1).tmod e.workerCount)) = true
      · by_cases hm : o.markRowsAffected = 0
        · right
          simp [Executor.begin, hb, hinfo, hlc, updateMark, hex, hm]
        · right
          simp [Executor.begin, hb, hinfo, hlc, updateMark, hex, hm]
      · simp only [Bool.not_eq_true] at hex
        right
        simp [Executor.begin, hb, hinfo, hlc, updateMark, hex]
    · left
      simp [Executor.begin, hb, hinfo, hlc]
  · simp only [Bool.not_eq_true] at hb
    left
    simp [Executor.begin, hb, hinfo]

/-- Events of the hook chain are only hook invocations. -/
theorem runHooks_events_shape (hs : List ExtHook) :
    ∀ ev ∈ (runHooks hs).1, ∃ r, ev = .hookCall r := by
  induction hs with
  | nil => simp [runHooks]
  | cons h rest ih =>
    cases h with
    | notExtend => simpa [runHooks] using ih
    | extend e =>
      cases e with
      | none =>
        intro ev hev
        simp only [runHooks, List.mem_cons] at hev
        rcases hev with rfl | hev
        · exact ⟨none, rfl⟩
        · exact ih ev hev
      | some s =>
        intro ev hev
        simp only [runHooks, List.mem_singleton] at hev
        exact ⟨some s, hev⟩

/-- No event of `begin` carries a per-DML statement. -/
theorem dmlStmt_begin_events (e : Executor) (o : DbOracle) :
    ∀ ev ∈ (e.begin o).events, ev.dmlStmt = none := by
  intro ev hev
  rcases begin_events_shape e o ev hev with rfl | ⟨id, rfl⟩ | rfl <;> rfl

/-- No event of the hook chain carries a per-DML statement. -/
theorem dmlStmt_runHooks_events (hs : List ExtHook) :
    ∀ ev ∈ (runHooks hs).1, ev.dmlStmt = none := by
  intro ev hev
  rcases runHooks_events_shape hs ev hev with ⟨r, rfl⟩
  rfl

/-- On an oracle accepting every statement, `execStmts` executes the whole
sequence and reports no error. -/
theorem execStmts_all_ok (o : DbOracle) (h : ∀ s, o.execOk s = true)
    (stmts : List Stmt) : execStmts o stmts = (stmts.map .exec, none) := by
  induction stmts with
  | nil => rfl
  | cons s rest ih => simp [execStmts, h s, ih]

/-- A filterMap that fixes every element of a list is the identity on it. -/
theorem filterMap_id_of {α : Type} (h : α → Option α) (l : List α)
    (hl : ∀ x ∈ l, h x = some x) : l.filterMap h = l := by
  induction l with
  | nil => rfl
  | cons x rest ih =>
    simp only [List.filterMap_cons, hl x (List.mem_cons_self x rest)]
    exact congrArg (x :: ·) (ih fun y hy => hl y (List.mem_cons_of_mem x hy))

/-- Every statement produced by the safe-mode rewrite is a per-DML
statement. -/
theorem safeStmts_dmlStmt (sm : Bool) (d : DML) :
    ∀ s ∈ safeStmts sm d, Event.dmlStmt (.exec s) = some s := by
  cases sm <;> cases h : d.tp <;> simp [safeStmts, h, Event.dmlStmt]

/-- C4: through `singleExec` with safe mode on, each update is executed as
its pre-image delete followed by its post-image replace, each insert as a
replace, and each delete as its own (delete) statement; with safe mode off
every DML is executed as its own unmodified statement. -/
theorem c4_singleExec_safe_mode (e : Executor) (o : DbOracle) (dmls : List DML)
    (sm : Bool) (i : LoopBackSync) (hinfo : e.info = some i)
    (hbr : (e.begin o).res = none) (hex : ∀ s, o.execOk s = true) :
    (e.singleExec o dmls sm).events.filterMap Event.dmlStmt
      = dmls.flatMap (fun d =>
          if sm then
            match d.tp with
            | .update => [.deleteSQLOf d, .replaceSQLOf d]
            | .insert => [.replaceSQLOf d]
            | .delete => [.sqlOf d]
          else [.sqlOf d]) := by
  have hsafe : ∀ d : DML,
      safeStmts sm d = (if sm then
          match d.tp with
          | .update => [Stmt.deleteSQLOf d, Stmt.replaceSQLOf d]
          | .insert => [Stmt.replaceSQLOf d]
          | .delete => [Stmt.sqlOf d]
        else [Stmt.sqlOf d]) := by
    intro d
    cases sm <;> cases h : d.tp <;> simp [safeStmts, h]
  have hstmts : ∀ s ∈ dmls.flatMap (safeStmts sm), Event.dmlStmt (.exec s) = some s := by
    intro s hs
    rcases List.mem_flatMap.mp hs with ⟨d, _, hsd⟩
    exact safeStmts_dmlStmt sm d s hsd
  have hrun := execStmts_all_ok o hex (dmls.flatMap (safeStmts sm))
  have hevents : (e.singleExec o dmls sm).events
      = (e.begin o).events
        ++ (if i.supportPlugin then runHooks i.hooks else ([], none)).1
        ++ ((dmls.flatMap (safeStmts sm)).map .exec ++ [.commitTx]) := by
    rcases begin_info'_of_some e o i hinfo with hi' | hi' <;>
      simp [Executor.singleExec, hbr, hi', hrun, List.append_assoc]
  rw [hevents]
  rw [List.filterMap_append, List.filterMap_append]
  rw [List.filterMap_eq_nil.mpr (dmlStmt_begin_events e o)]
  have hhk : ((if i.supportPlugin then runHooks i.hooks else ([], none)).1).filterMap
      Event.dmlStmt = [] := by
    cases hsp : i.supportPlugin with
    | true => simpa using List.filterMap_eq_nil.mpr (dmlStmt_runHooks_events i.hooks)
    | false => rfl
  rw [hhk]
  rw [List.filterMap_append, List.filterMap_map]
  have : (dmls.flatMap (safeStmts sm)).filterMap (Event.dmlStmt ∘ Event.exec)
      = dmls.flatMap (safeStmts sm) := filterMap_id_of _ _ hstmts
  simp only [Function.comp] at this ⊢
  rw [this]
  simp only [List.filterMap_cons, List.filterMap_nil]
  simp only [Event.dmlStmt, List.nil_append, List.append_nil]
  exact congrArg (List.flatMap dmls) (funext hsafe)

/-- C4 witness: concrete safe-mode execution of a delete, an insert and an
update. -/
theorem c4_singleExec_safe_mode_witness :
    exeQ.info = some { lbs with loopbackControl := false, supportPlugin := false }
    ∧ (exeQ.begin oracleOk).res = none
    ∧ (∀ s, oracleOk.execOk s = true)
    ∧ (exeQ.singleExec oracleOk [dDel1, dIns2, dUpd3] true).events.filterMap Event.dmlStmt
        = [dDel1, dIns2, dUpd3].flatMap (fun d =>
            if true then
              match d.tp with
              | .update => [.deleteSQLOf d, .replaceSQLOf d]
              | .insert => [.replaceSQLOf d]
              | .delete => [.sqlOf d]
            else [.sqlOf d]) :=
  ⟨rfl, rfl, fun _ => rfl,
    c4_singleExec_safe_mode exeQ oracleOk [dDel1, dIns2, dUpd3] true
      { lbs with loopbackControl := false, supportPlugin := false } rfl rfl
      (fun _ => rfl)⟩

/-- A key is absent from the accumulator iff `assocFind` misses. -/
theorem assocFind_eq_none (k : MKey) (l : List (MKey × DML)) :
    assocFind k l = none ↔ k ∉ l.map Prod.fst := by
  induction l with
  | nil => simp [assocFind]
  | cons p rest ih =>
    obtain ⟨k', d⟩ := p
    simp only [List.map_cons, List.mem_cons]
    by_cases h : k' = k
    · subst h
      rw [assocFind, if_pos rfl]
      constructor
      · intro hc
        exact Option.noConfusion hc
      · intro hc
        exact absurd (Or.inl rfl) hc
    · rw [assocFind, if_neg h]
      rw [ih]
      constructor
      · intro hc hor
        rcases hor with rfl | hor
        · exact h rfl
        · exact hc hor
      · intro hc hmem
        exact hc (Or.inr hmem)

/-- Erasing a key only removes entries. -/
theorem assocErase_subset (k : MKey) (l : List (MKey × DML)) :
    ∀ p ∈ assocErase k l, p ∈ l := by
  induction l with
  | nil => simp [assocErase]
  | cons q rest ih =>
    obtain ⟨k', d⟩ := q
    by_cases h : k' = k
    · intro p hp
      rw [assocErase, if_pos h] at hp
      exact List.mem_cons.mpr (Or.inr hp)
    · intro p hp
      rw [assocErase, if_neg h] at hp
      rcases List.mem_cons.mp hp with rfl | hp
      · exact List.mem_cons.mpr (Or.inl rfl)
      · exact List.mem_cons.mpr (Or.inr (ih p hp))

/-- Erasing a key keeps a sub-sequence of the keys. -/
theorem assocErase_keys_sublist (k : MKey) (l : List (MKey × DML)) :
    List.Sublist ((assocErase k l).map Prod.fst) (l.map Prod.fst) := by
  induction l with
  | nil => simp [assocErase]
  | cons q rest ih =>
    obtain ⟨k', d⟩ := q
    by_cases h : k' = k
    · rw [assocErase, if_pos h, List.map_cons]
      exact List.Sublist.cons _ (List.Sublist.refl _)
    · rw [assocErase, if_neg h, List.map_cons, List.map_cons]
      exact List.Sublist.cons₂ _ ih

/-- Overwriting a key's value keeps the key list. -/
theorem assocSet_keys (k : MKey) (d : DML) (l : List (MKey × DML)) :
    (assocSet k d l).map Prod.fst = l.map Prod.fst := by
  induction l with
  | nil => simp [assocSet]
  | cons q rest ih =>
    obtain ⟨k', d'⟩ := q
    by_cases h : k' = k
    · simp only [assocSet, if_pos h, List.map_cons]
      rw [h]
    · simp only [assocSet, if_neg h, List.map_cons, ih]

/-- Entries after overwriting a key are the new entry or old entries. -/
theorem assocSet_mem (k : MKey) (d : DML) (l : List (MKey × DML)) :
    ∀ p ∈ assocSet k d l, p = (k, d) ∨ p ∈ l := by
  induction l with
  | nil => simp [assocSet]
  | cons q rest ih =>
    obtain ⟨k', d'⟩ := q
    by_cases h : k' = k
    · intro p hp
      rw [assocSet, if_pos h] at hp
      rcases List.mem_cons.mp hp with rfl | hp
      · exact Or.inl rfl
      · exact Or.inr (List.mem_cons.mpr (Or.inr hp))
    · intro p hp
      rw [assocSet, if_neg h] at hp
      rcases List.mem_cons.mp hp with rfl | hp
      · exact Or.inr (List.mem_cons.mpr (Or.inl rfl))
      · rcases ih p hp with h' | h'
        · exact Or.inl h'
        · exact Or.inr (List.mem_cons.mpr (Or.inr h'))

/-- Collapsing never changes the composite key of the surviving DML. -/
theorem collapse_key (pt : DMLType) (d d' : DML)
    (h : collapse pt d = some (some d')) : dmlKey d' = dmlKey d := by
  cases pt <;> cases htp : d.tp <;> simp [collapse, htp] at h <;>
    subst h <;> rfl

/-- The merge scan preserves the accumulator invariant. -/
theorem mergeList_wf : ∀ (l : List DML) (acc acc' : List (MKey × DML)),
    accWf acc → mergeList acc l = some acc' → accWf acc' := by
  intro l
  induction l with
  | nil =>
    intro acc acc' h hm
    simp only [mergeList, Option.some.injEq] at hm
    exact hm ▸ h
  | cons d rest ih =>
    intro acc acc' h hm
    simp only [mergeList] at hm
    split at hm
    next hf =>
      apply ih _ _ _ hm
      constructor
      · intro p hp
        rcases List.mem_append.mp hp with hp | hp
        · exact h.1 p hp
        · simp only [List.mem_singleton] at hp
          subst hp
          rfl
      · rw [List.map_append]
        simp only [List.map_cons, List.map_nil]
        rw [List.nodup_append]
        refine ⟨h.2, List.nodup_singleton _, ?_⟩
        intro k hk
        simp only [List.mem_singleton]
        intro hkk
        subst hkk
        exact (assocFind_eq_none _ _).mp hf hk
    next prior hf =>
      split at hm
      next hc => exact Option.noConfusion hm
      next hc =>
        apply ih _ _ _ hm
        exact ⟨fun p hp => h.1 p (assocErase_subset _ _ p hp),
          h.2.sublist (assocErase_keys_sublist _ _)⟩
      next d' hc =>
        apply ih _ _ _ hm
        constructor
        · intro p hp
          rcases assocSet_mem _ _ _ p hp with rfl | hp
          · exact collapse_key _ _ _ hc
          · exact h.1 p hp
        · rw [assocSet_keys]
          exact h.2

/-- C2: after a successful merge by primary key, any two distinct entries of
each per-operation bucket carry different composite
(schema, table, pk-tuple) keys. -/
theorem c2_merge_buckets_unique (L : List DML) (m : MergedTypes)
    (h : mergeByPrimaryKey L = some m) :
    m.deletes.Pairwise (fun x y => dmlKey x ≠ dmlKey y)
    ∧ m.inserts.Pairwise (fun x y => dmlKey x ≠ dmlKey y)
    ∧ m.updates.Pairwise (fun x y => dmlKey x ≠ dmlKey y) := by
  cases hml : mergeList [] L with
  | none =>
    rw [mergeByPrimaryKey, hml] at h
    cases h
  | some acc =>
    rw [mergeByPrimaryKey, hml] at h
    simp only [Option.map_some', Option.map_some, Option.some.injEq] at h
    have hwf := mergeList_wf L [] acc ⟨by simp, by simp⟩ hml
    have hpair : (acc.map Prod.snd).Pairwise (fun x y => dmlKey x ≠ dmlKey y) := by
      have hkeys : acc.map Prod.fst = (acc.map Prod.snd).map dmlKey := by
        rw [List.map_map]
        exact (List.map_congr_left fun p hp => (hwf.1 p hp).symm)
      have hnd := hwf.2
      rw [hkeys] at hnd
      exact List.pairwise_map.mp hnd
    subst h
    exact ⟨hpair.sublist (List.filter_sublist _),
      hpair.sublist (List.filter_sublist _),
      hpair.sublist (List.filter_sublist _)⟩

/-- C2 witness: concrete merge of three DMLs with distinct keys. -/
theorem c2_merge_buckets_unique_witness :
    mergeByPrimaryKey [dDel1, dIns2, dUpd3]
      = some { deletes := [dDel1], inserts := [dIns2], updates := [dUpd3] }
    ∧ ([dDel1].Pairwise (fun x y => dmlKey x ≠ dmlKey y)
       ∧ [dIns2].Pairwise (fun x y => dmlKey x ≠ dmlKey y)
       ∧ [dUpd3].Pairwise (fun x y => dmlKey x ≠ dmlKey y)) :=
  ⟨by decide,
    c2_merge_buckets_unique [dDel1, dIns2, dUpd3]
      { deletes := [dDel1], inserts := [dIns2], updates := [dUpd3] } (by decide)⟩

/-- Every event of `bulkDelete` is a begin event, a hook invocation, the
bulk-delete statement, a commit or a rollback. -/
theorem bulkDelete_events_shape (e : Executor) (o : DbOracle) (c : List DML) :
    ∀ ev ∈ (e.bulkDelete o c).events,
      ev ∈ (e.begin o).events ∨ (∃ r, ev = .hookCall r)
      ∨ ev = .exec (.bulkDeleteSQL c) ∨ ev = .commitTx ∨ ev = .rollbackTx := by
  intro ev hev
  simp only [Executor.bulkDelete] at hev
  split at hev
  · simp at hev
  · split at hev
    next msg hmsg => exact Or.inl hev
    next hbr =>
      split at hev
      next hinfo => exact Or.inl hev
      next i hinfo =>
        have hhk : ∀ ev ∈ (if i.supportPlugin = true then runHooks i.hooks
            else (([], none) : List Event × Option String)).1, ∃ r, ev = Event.hookCall r := by
          by_cases hsp : i.supportPlugin = true
          · simpa [hsp] using runHooks_events_shape i.hooks
          · simp [hsp]
        repeat' split at hev
        all_goals
          simp only [List.mem_append, List.mem_cons, List.mem_singleton,
            List.not_mem_nil, or_false] at hev
        all_goals repeat' rcases hev with hev | hev
        all_goals first
          | exact Or.inl hev
          | exact Or.inr (Or.inl (hhk _ hev))
          | exact Or.inr (Or.inl (runHooks_events_shape _ _ hev))
          | exact absurd hev (List.not_mem_nil _)
          | tauto

/-- Every event of `bulkReplace` is a begin event, a hook invocation, the
bulk-replace statement, a commit or a rollback. -/
theorem bulkReplace_events_shape (e : Executor) (o : DbOracle) (c : List DML) :
    ∀ ev ∈ (e.bulkReplace o c).events,
      ev ∈ (e.begin o).events ∨ (∃ r, ev = .hookCall r)
      ∨ ev = .exec (.bulkReplaceSQL c) ∨ ev = .commitTx ∨ ev = .rollbackTx := by
  intro ev hev
  simp only [Executor.bulkReplace] at hev
  split at hev
  · simp at hev
  · split at hev
    next msg hmsg => exact Or.inl hev
    next hbr =>
      split at hev
      next hinfo => exact Or.inl hev
      next i hinfo =>
        have hhk : ∀ ev ∈ (if i.supportPlugin = true then runHooks i.hooks
            else (([], none) : List Event × Option String)).1, ∃ r, ev = Event.hookCall r := by
          by_cases hsp : i.supportPlugin = true
          · simpa [hsp] using runHooks_events_shape i.hooks
          · simp [hsp]
        repeat' split at hev
        all_goals
          simp only [List.mem_append, List.mem_cons, List.mem_singleton,
            List.not_mem_nil, or_false] at hev
        all_goals repeat' rcases hev with hev | hev
        all_goals first
          | exact Or.inl hev
          | exact Or.inr (Or.inl (hhk _ hev))
          | exact Or.inr (Or.inl (runHooks_events_shape _ _ hev))
          | exact absurd hev (List.not_mem_nil _)
          | tauto

/-- No event of `bulkDelete` executes a bulk-replace statement. -/
theorem bulkDelete_no_replace (e : Executor) (o : DbOracle) (c : List DML) :
    ∀ ev ∈ (e.bulkDelete o c).events, ev.isReplaceExec = false := by
  intro ev hev
  rcases bulkDelete_events_shape e o c ev hev with h | ⟨r, rfl⟩ | rfl | rfl | rfl
  · rcases begin_events_shape e o ev h with rfl | ⟨id, rfl⟩ | rfl <;> rfl
  all_goals rfl

/-- No event of `bulkReplace` executes a bulk-delete statement. -/
theorem bulkReplace_no_delete (e : Executor) (o : DbOracle) (c : List DML) :
    ∀ ev ∈ (e.bulkReplace o c).events, ev.isDeleteExec = false := by
  intro ev hev
  rcases bulkReplace_events_shape e o c ev hev with h | ⟨r, rfl⟩ | rfl | rfl | rfl
  · rcases begin_events_shape e o ev h with rfl | ⟨id, rfl⟩ | rfl <;> rfl
  all_goals rfl

/-- An event property preserved by every chunk execution is preserved by the
fan-out. -/
theorem runChunks_events_pred (P : Event → Prop) (o : DbOracle)
    (ex : Executor → DbOracle → List DML → ExecOut)
    (hex : ∀ e' c, ∀ ev ∈ (ex e' o c).events, P ev) :
    ∀ (cs : List (List DML)) (e : Executor), ∀ ev ∈ (runChunks e o ex cs).1, P ev := by
  intro cs
  induction cs with
  | nil =>
    intro e ev hev
    simp [runChunks] at hev
  | cons c rest ih =>
    intro e ev hev
    simp only [runChunks] at hev
    rcases List.mem_append.mp hev with h | h
    · exact hex e c ev h
    · exact ih _ ev h

/-- Inside the delete phase no bulk-replace statement is executed. -/
theorem deletePhase_no_replace (e : Executor) (o : DbOracle) (m : MergedTypes) :
    ∀ ev ∈ (e.deletePhase o m).1, ev.isReplaceExec = false :=
  runChunks_events_pred _ o _ (fun e' c => bulkDelete_no_replace e' o c) _ e

/-- Inside the insert phase no bulk-delete statement is executed. -/
theorem insertPhase_no_delete (e : Executor) (o : DbOracle) (m : MergedTypes) :
    ∀ ev ∈ (e.insertPhase o m).1, ev.isDeleteExec = false :=
  runChunks_events_pred _ o _ (fun e' c => bulkReplace_no_delete e' o c) _ e

/-- Inside the update phase no bulk-delete statement is executed. -/
theorem updatePhase_no_delete (e : Executor) (o : DbOracle) (m : MergedTypes) :
    ∀ ev ∈ (e.updatePhase o m).1, ev.isDeleteExec = false :=
  runChunks_events_pred _ o _ (fun e' c => bulkReplace_no_delete e' o c) _ e

/-- Equal lists have equal elements at equal positions. -/
theorem get_congr {α : Type} {l l' : List α} (h : l = l') {i : Nat}
    (hi : i < l.length) (hi' : i < l'.length) :
    l.get ⟨i, hi⟩ = l'.get ⟨i, hi'⟩ := by
  subst h
  rfl

/-- In a concatenation whose first part has no `q` event and whose second
part has no `p` event, every `p` position precedes every `q` position. -/
theorem ordered_append (l₁ l₂ : List Event) (p q : Event → Bool)
    (h₁ : ∀ x ∈ l₁, q x = false) (h₂ : ∀ x ∈ l₂, p x = false) :
    ∀ i j (hi : i < (l₁ ++ l₂).length) (hj : j < (l₁ ++ l₂).length),
      p ((l₁ ++ l₂).get ⟨i, hi⟩) = true → q ((l₁ ++ l₂).get ⟨j, hj⟩) = true → i < j := by
  intro i j hi hj hp hq
  rcases Nat.lt_or_ge i l₁.length with hil | hil
  · rcases Nat.lt_or_ge j l₁.length with hjl | hjl
    · exfalso
      rw [List.get_eq_getElem, List.getElem_append_left hjl] at hq
      have := h₁ _ (List.getElem_mem hjl)
      simp [this] at hq
    · omega
  · exfalso
    have hi2 : i - l₁.length < l₂.length := by
      rw [List.length_append] at hi
      omega
    rw [List.get_eq_getElem, List.getElem_append_right hil] at hp
    have := h₂ _ (List.getElem_mem hi2)
    simp [this] at hp

/-- C1: in `execTableBatch` every executed bulk-delete statement strictly
precedes every executed bulk-replace statement, and if the delete phase
fails no bulk-replace statement is executed at all. -/
theorem c1_deletes_before_replaces (e : Executor) (o : DbOracle) (dmls : List DML)
    (hne : dmls ≠ []) :
    (∀ i j (hi : i < (e.execTableBatch o dmls).events.length)
         (hj : j < (e.execTableBatch o dmls).events.length),
       ((e.execTableBatch o dmls).events.get ⟨i, hi⟩).isDeleteExec = true →
       ((e.execTableBatch o dmls).events.get ⟨j, hj⟩).isReplaceExec = true → i < j)
    ∧ (∀ m, mergeByPrimaryKey dmls = some m →
        (e.deletePhase o m).2.1 ≠ .ok →
        ∀ ev ∈ (e.execTableBatch o dmls).events, ev.isReplaceExec = false) := by
  cases hmm : mergeByPrimaryKey dmls with
  | none =>
    have hev : (e.execTableBatch o dmls).events = [] := by
      simp [Executor.execTableBatch, hne, hmm]
    constructor
    · intro i j hi hj
      rw [hev] at hi
      exact absurd hi (by simp)
    · intro m hm
      exact Option.noConfusion hm
  | some m =>
    have hdel := deletePhase_no_replace e o m
    have hsplit : ∃ rest, (e.execTableBatch o dmls).events = (e.deletePhase o m).1 ++ rest
        ∧ ∀ ev ∈ rest, ev.isDeleteExec = false := by
      simp only [Executor.execTableBatch, hmm, if_neg hne]
      split
      · split
        · refine ⟨_, List.append_assoc _ _ _, ?_⟩
          intro ev hev
          rcases List.mem_append.mp hev with h | h
          · exact insertPhase_no_delete _ o m ev h
          · exact updatePhase_no_delete _ o m ev h
        · exact ⟨_, rfl, insertPhase_no_delete _ o m⟩
      · exact ⟨[], (List.append_nil _).symm, by simp⟩
    obtain ⟨rest, heq, hrest⟩ := hsplit
    constructor
    · intro i j hi hj hp hq
      have hi' : i < ((e.deletePhase o m).1 ++ rest).length := heq ▸ hi
      have hj' : j < ((e.deletePhase o m).1 ++ rest).length := heq ▸ hj
      rw [get_congr heq hi hi'] at hp
      rw [get_congr heq hj hj'] at hq
      exact ordered_append _ _ _ _ hdel hrest i j hi' hj' hp hq
    · intro m' hm' hfail
      injection hm' with hm'
      subst hm'
      intro ev hev
      simp only [Executor.execTableBatch, hmm, if_neg hne] at hev
      cases hres : (e.deletePhase o m).2.1 with
      | ok => exact absurd hres hfail
      | err msg => exact hdel ev hev
      | nilPanic => exact hdel ev hev

/-- C1 witness: concrete batch with one delete, one insert and one update. -/
theorem c1_deletes_before_replaces_witness :
    [dDel1, dIns2, dUpd3] ≠ ([] : List DML)
    ∧ ((∀ i j (hi : i < (exeQ.execTableBatch oracleOk [dDel1, dIns2, dUpd3]).events.length)
           (hj : j < (exeQ.execTableBatch oracleOk [dDel1, dIns2, dUpd3]).events.length),
         ((exeQ.execTableBatch oracleOk [dDel1, dIns2, dUpd3]).events.get
             ⟨i, hi⟩).isDeleteExec = true →
         ((exeQ.execTableBatch oracleOk [dDel1, dIns2, dUpd3]).events.get
             ⟨j, hj⟩).isReplaceExec = true → i < j)
       ∧ (∀ m, mergeByPrimaryKey [dDel1, dIns2, dUpd3] = some m →
           (exeQ.deletePhase oracleOk m).2.1 ≠ .ok →
           ∀ ev ∈ (exeQ.execTableBatch oracleOk [dDel1, dIns2, dUpd3]).events,
             ev.isReplaceExec = false)) :=
  ⟨by decide,
    c1_deletes_before_replaces exeQ oracleOk [dDel1, dIns2, dUpd3] (by decide)⟩

/-- The hook chain invokes exactly the extensions up to and including the
first failing one, and its error is the failing extension's error. -/
theorem runHooks_stops (pre : List ExtHook) (s : String) (post : List ExtHook)
    (hpre : ∀ x ∈ pre, x.ok = true) :
    runHooks (pre ++ .extend (some s) :: post)
      = (pre.filterMap hookEv ++ [.hookCall (some s)], some s) := by
  induction pre with
  | nil => rfl
  | cons h rest ih =>
    have hh := hpre h (List.mem_cons.mpr (Or.inl rfl))
    have hrest := fun x hx => hpre x (List.mem_cons.mpr (Or.inr hx))
    cases h with
    | notExtend =>
      simp only [List.cons_append, runHooks, List.append_eq]
      rw [ih hrest]
      simp [hookEv]
    | extend er =>
      cases er with
      | none =>
        simp only [List.cons_append, runHooks, List.append_eq]
        rw [ih hrest]
        simp [hookEv]
      | some s' => exact absurd hh (by simp [ExtHook.ok])

/-- `begin` behaves the same whatever hooks are registered, except for
carrying the new hooks in its returned info. -/
theorem begin_setHooks (e : Executor) (o : DbOracle) (h : List ExtHook) :
    ((e.setHooks h).begin o).res = (e.begin o).res
    ∧ ((e.setHooks h).begin o).events = (e.begin o).events
    ∧ ((e.setHooks h).begin o).info'
        = ((e.begin o).info').map (fun i => { i with hooks := h }) := by
  by_cases hb : o.beginOk = true
  · cases hinfo : e.info with
    | none => simp [Executor.setHooks, Executor.begin, hb, hinfo]
    | some i =>
      by_cases hlc : i.loopbackControl = true
      · by_cases hex : o.execOk (.updateMark ((i.index + 1).tmod e.workerCount)) = true
        · by_cases hm : o.markRowsAffected = 0 <;>
            simp [Executor.setHooks, Executor.begin, hb, hinfo, hlc, updateMark, hex, hm]
        · simp only [Bool.not_eq_true] at hex
          simp [Executor.setHooks, Executor.begin, hb, hinfo, hlc, updateMark, hex]
      · simp [Executor.setHooks, Executor.begin, hb, hinfo, hlc]
  · simp only [Bool.not_eq_true] at hb
    simp only [Executor.setHooks, Executor.begin, hb]
    cases e.info <;> simp

/-- The result of `bulkDelete` is determined by the emptiness of the batch,
the outcome of `begin` and the oracle — never by the hook chain. -/
theorem bulkDelete_res_formula (e : Executor) (o : DbOracle) (c : List DML)
    (i : LoopBackSync) (hinfo : e.info = some i) :
    (e.bulkDelete o c).res =
      if c = [] then .ok
      else match (e.begin o).res with
        | some msg => .err msg
        | none =>
          if o.execOk (.bulkDeleteSQL c) then
            (if o.commitOk then .ok else .err "commit failed")
          else .err "exec failed" := by
  by_cases hc : c = []
  · simp [Executor.bulkDelete, hc]
  · cases hbr : (e.begin o).res with
    | some msg =>
      simp [Executor.bulkDelete, hc, hbr]
    | none =>
      rcases begin_info'_of_some e o i hinfo with hi' | hi' <;>
        by_cases hex : o.execOk (.bulkDeleteSQL c) = true <;>
          by_cases hco : o.commitOk = true <;>
            simp [Executor.bulkDelete, hc, hbr, hi', hex, hco]

/-- The result of `bulkReplace` is likewise hook-independent. -/
theorem bulkReplace_res_formula (e : Executor) (o : DbOracle) (c : List DML)
    (i : LoopBackSync) (hinfo : e.info = some i) :
    (e.bulkReplace o c).res =
      if c = [] then .ok
      else match (e.begin o).res with
        | some msg => .err msg
        | none =>
          if o.execOk (.bulkReplaceSQL c) then
            (if o.commitOk then .ok else .err "commit failed")
          else .err "exec failed" := by
  by_cases hc : c = []
  · simp [Executor.bulkReplace, hc]
  · cases hbr : (e.begin o).res with
    | some msg =>
      simp [Executor.bulkReplace, hc, hbr]
    | none =>
      rcases begin_info'_of_some e o i hinfo with hi' | hi' <;>
        by_cases hex : o.execOk (.bulkReplaceSQL c) = true <;>
          by_cases hco : o.commitOk = true <;>
            simp [Executor.bulkReplace, hc, hbr, hi', hex, hco]

/-- The result of `singleExec` is likewise hook-independent. -/
theorem singleExec_res_formula (e : Executor) (o : DbOracle) (dmls : List DML)
    (sm : Bool) (i : LoopBackSync) (hinfo : e.info = some i) :
    (e.singleExec o dmls sm).res =
      match (e.begin o).res with
      | some msg => .err msg
      | none =>
        match (execStmts o (dmls.flatMap (safeStmts sm))).2 with
        | some msg => .err msg
        | none => if o.commitOk then .ok else .err "commit failed" := by
  cases hbr : (e.begin o).res with
  | some msg =>
    simp [Executor.singleExec, hbr]
  | none =>
    rcases begin_info'_of_some e o i hinfo with hi' | hi' <;>
      cases hr : (execStmts o (dmls.flatMap (safeStmts sm))).2 <;>
        simp [Executor.singleExec, hbr, hi', hr]

/-- C6: a failing `ExecutorExtend` extension stops the hook chain at that
extension, yet the executor still issues the business statements and the
commit on the same transaction, and the result of `bulkDelete`, `bulkReplace`
and `singleExec` never depends on the registered hooks — the hook error is
never returned. -/
theorem c6_hook_errors_swallowed (e : Executor) (o : DbOracle) (dmls : List DML)
    (sm : Bool) (i : LoopBackSync) (hinfo : e.info = some i)
    (hsp : i.supportPlugin = true) (hne : dmls ≠ [])
    (hbr : (e.begin o).res = none) :
    (∀ pre s post, (∀ x ∈ pre, x.ok = true) →
       runHooks (pre ++ .extend (some s) :: post)
         = (pre.filterMap hookEv ++ [.hookCall (some s)], some s))
    ∧ Event.exec (.bulkDeleteSQL dmls) ∈ (e.bulkDelete o dmls).events
    ∧ (o.execOk (.bulkDeleteSQL dmls) = true →
        Event.commitTx ∈ (e.bulkDelete o dmls).events)
    ∧ Event.exec (.bulkReplaceSQL dmls) ∈ (e.bulkReplace o dmls).events
    ∧ (o.execOk (.bulkReplaceSQL dmls) = true →
        Event.commitTx ∈ (e.bulkReplace o dmls).events)
    ∧ ((∀ s, o.execOk s = true) →
        (∀ d ∈ dmls, ∀ st ∈ safeStmts sm d,
          Event.exec st ∈ (e.singleExec o dmls sm).events)
        ∧ Event.commitTx ∈ (e.singleExec o dmls sm).events)
    ∧ (∀ h₁ h₂ : List ExtHook,
        ((e.setHooks h₁).bulkDelete o dmls).res = ((e.setHooks h₂).bulkDelete o dmls).res
        ∧ ((e.setHooks h₁).bulkReplace o dmls).res = ((e.setHooks h₂).bulkReplace o dmls).res
        ∧ ((e.setHooks h₁).singleExec o dmls sm).res
            = ((e.setHooks h₂).singleExec o dmls sm).res) := by
  refine ⟨fun pre s post h => runHooks_stops pre s post h, ?_, ?_, ?_, ?_, ?_, ?_⟩
  · rcases begin_info'_of_some e o i hinfo with hi' | hi' <;>
      by_cases hex : o.execOk (.bulkDeleteSQL dmls) = true <;>
        by_cases hco : o.commitOk = true <;>
          simp [Executor.bulkDelete, hne, hbr, hi', hex, hco]
  · intro hex
    rcases begin_info'_of_some e o i hinfo with hi' | hi' <;>
      by_cases hco : o.commitOk = true <;>
        simp [Executor.bulkDelete, hne, hbr, hi', hex, hco]
  · rcases begin_info'_of_some e o i hinfo with hi' | hi' <;>
      by_cases hex : o.execOk (.bulkReplaceSQL dmls) = true <;>
        by_cases hco : o.commitOk = true <;>
          simp [Executor.bulkReplace, hne, hbr, hi', hex, hco]
  · intro hex
    rcases begin_info'_of_some e o i hinfo with hi' | hi' <;>
      by_cases hco : o.commitOk = true <;>
        simp [Executor.bulkReplace, hne, hbr, hi', hex, hco]
  · intro hall
    have hrun := execStmts_all_ok o hall (dmls.flatMap (safeStmts sm))
    constructor
    · intro d hd st hst
      have hmem : st ∈ dmls.flatMap (safeStmts sm) :=
        List.mem_flatMap.mpr ⟨d, hd, hst⟩
      rcases begin_info'_of_some e o i hinfo with hi' | hi' <;>
        simp [Executor.singleExec, hbr, hi', hrun, hmem] <;>
          exact Or.inr (Or.inr ⟨d, hd, hst⟩)
    · rcases begin_info'_of_some e o i hinfo with hi' | hi' <;>
        simp [Executor.singleExec, hbr, hi', hrun]
  · intro h₁ h₂
    have hs₁ : (e.setHooks h₁).info = some { i with hooks := h₁ } := by
      simp [Executor.setHooks, hinfo]
    have hs₂ : (e.setHooks h₂).info = some { i with hooks := h₂ } := by
      simp [Executor.setHooks, hinfo]
    refine ⟨?_, ?_, ?_⟩
    · rw [bulkDelete_res_formula _ o dmls _ hs₁, bulkDelete_res_formula _ o dmls _ hs₂,
        (begin_setHooks e o h₁).1, (begin_setHooks e o h₂).1]
    · rw [bulkReplace_res_formula _ o dmls _ hs₁, bulkReplace_res_formula _ o dmls _ hs₂,
        (begin_setHooks e o h₁).1, (begin_setHooks e o h₂).1]
    · rw [singleExec_res_formula _ o dmls sm _ hs₁, singleExec_res_formula _ o dmls sm _ hs₂,
        (begin_setHooks e o h₁).1, (begin_setHooks e o h₂).1]

/-- C6 witness: concrete run on a plugin-enabled executor whose second hook
fails. -/
theorem c6_hook_errors_swallowed_witness :
    exeL.info = some lbs ∧ lbs.supportPlugin = true
    ∧ [dIns2] ≠ ([] : List DML) ∧ (exeL.begin oracleOk).res = none
    ∧ Event.exec (.bulkDeleteSQL [dIns2]) ∈ (exeL.bulkDelete oracleOk [dIns2]).events
    ∧ Event.commitTx ∈ (exeL.bulkDelete oracleOk [dIns2]).events
    ∧ runHooks lbs.hooks = ([.hookCall none, .hookCall (some "hook boom")], some "hook boom")
    ∧ (exeL.bulkDelete oracleOk [dIns2]).res = .ok := by
  have h := c6_hook_errors_swallowed exeL oracleOk [dIns2] true lbs rfl rfl
    (by decide) rfl
  refine ⟨rfl, rfl, by decide, rfl, h.2.1, h.2.2.1 rfl, ?_, ?_⟩
  · have hstop := h.1 [.extend none] "hook boom" [.extend none] (by decide)
    simpa [hookEv] using hstop
  · rfl

/-- An empty `name2info` cache never hits. -/
theorem cacheFind_nil (n : String) : cacheFind n [] = none := rfl

/-- Unfolding of `cacheFind` on a cons cell. -/
theorem cacheFind_cons (n n' : String) (ti : TableInfo)
    (cache : List (String × TableInfo)) :
    cacheFind n ((n', ti) :: cache) = if n' = n then some ti else cacheFind n cache := rfl

/-- Zipping a list with its image pairs each element with its image. -/
theorem mem_zip_map {α β : Type} (g : α → β) (l : List α) :
    ∀ p ∈ l.zip (l.map g), p.2 = g p.1 := by
  induction l with
  | nil => simp
  | cons x rest ih =>
    intro p hp
    simp only [List.map_cons, List.zip_cons_cons, List.mem_cons] at hp
    rcases hp with rfl | hp
    · rfl
    · exact ih p hp

/-- When table names do not collide, the refresh pass rewrites each DML
independently: a cache hit returns exactly what the callback would. -/
theorem refreshGo_fst (f : String → String → Option TableInfo) :
    ∀ (l : List DML) (cache : List (String × TableInfo)),
      (∀ d₁ ∈ l, ∀ d₂ ∈ l, DML.TableName d₁ = DML.TableName d₂ →
        d₁.database = d₂.database ∧ d₁.table = d₂.table) →
      (∀ d ∈ l, ∀ ti, cacheFind d.TableName cache = some ti →
        f d.database d.table = some ti) →
      (refreshGo f cache l).1 = l.map (refreshOne f) := by
  intro l
  induction l with
  | nil =>
    intro cache _ _
    rfl
  | cons d rest ih =>
    intro cache hinj hcache
    have hinj' : ∀ d₁ ∈ rest, ∀ d₂ ∈ rest, DML.TableName d₁ = DML.TableName d₂ →
        d₁.database = d₂.database ∧ d₁.table = d₂.table :=
      fun d₁ h₁ d₂ h₂ =>
        hinj d₁ (List.mem_cons.mpr (Or.inr h₁)) d₂ (List.mem_cons.mpr (Or.inr h₂))
    have hcache' : ∀ d' ∈ rest, ∀ ti, cacheFind d'.TableName cache = some ti →
        f d'.database d'.table = some ti :=
      fun d' h' => hcache d' (List.mem_cons.mpr (Or.inr h'))
    cases hc : cacheFind d.TableName cache with
    | some ti =>
      have hf : f d.database d.table = some ti :=
        hcache d (List.mem_cons.mpr (Or.inl rfl)) ti hc
      simp only [refreshGo, hc, List.map_cons]
      rw [ih cache hinj' hcache']
      simp [refreshOne, hf]
    | none =>
      cases hf : f d.database d.table with
      | none =>
        simp only [refreshGo, hc, hf, List.map_cons]
        rw [ih cache hinj' hcache']
        simp [refreshOne, hf]
      | some ti =>
        have hcache2 : ∀ d' ∈ rest, ∀ ti',
            cacheFind d'.TableName ((d.TableName, ti) :: cache) = some ti' →
            f d'.database d'.table = some ti' := by
          intro d' h' ti' hfind
          rw [cacheFind_cons] at hfind
          by_cases heq : d.TableName = d'.TableName
          · rw [if_pos heq] at hfind
            injection hfind with hfind
            subst hfind
            obtain ⟨hdb, htb⟩ := hinj d' (List.mem_cons.mpr (Or.inr h')) d
              (List.mem_cons.mpr (Or.inl rfl)) heq.symm
            rw [hdb, htb]
            exact hf
          · rw [if_neg heq] at hfind
            exact hcache' d' h' ti' hfind
        simp only [refreshGo, hc, hf, List.map_cons]
        rw [ih ((d.TableName, ti) :: cache) hinj' hcache2]
        simp [refreshOne, hf]

/-- For a table whose refresh succeeds, the callback is invoked exactly once
(when some DML references it and its name is not yet cached), never more. -/
theorem refreshGo_calls_success (f : String → String → Option TableInfo)
    (a b : String) (hf : f a b ≠ none) :
    ∀ (l : List DML) (cache : List (String × TableInfo)),
      (∀ d ∈ l, DML.TableName d = tnOf a b → d.database = a ∧ d.table = b) →
      ((cacheFind (tnOf a b) cache = none →
        (refreshGo f cache l).2.count (a, b)
          = (if l.any (fun d => d.database == a && d.table == b) then 1 else 0))
      ∧ (cacheFind (tnOf a b) cache ≠ none →
        (refreshGo f cache l).2.count (a, b) = 0)) := by
  intro l
  induction l with
  | nil =>
    intro cache _
    constructor <;> intro <;> simp [refreshGo]
  | cons d rest ih =>
    intro cache hname
    have hname' : ∀ d' ∈ rest, DML.TableName d' = tnOf a b →
        d'.database = a ∧ d'.table = b :=
      fun d' h' => hname d' (List.mem_cons.mpr (Or.inr h'))
    have hdfalse : ¬(d.database = a ∧ d.table = b) →
        (d.database == a && d.table == b) = false := by
      intro hneq
      by_cases hdb : d.database = a
      · by_cases htb : d.table = b
        · exact absurd ⟨hdb, htb⟩ hneq
        · simp [htb]
      · simp [hdb]
    have hpairfalse : ¬(d.database = a ∧ d.table = b) →
        (((d.database, d.table) : String × String) == (a, b)) = false := by
      intro hneq
      simp only [beq_eq_false_iff_ne, ne_eq, Prod.mk.injEq, not_and]
      intro h1 h2
      exact hneq ⟨h1, h2⟩
    constructor
    · intro hmiss
      cases hc : cacheFind d.TableName cache with
      | some ti =>
        have hneq : ¬(d.database = a ∧ d.table = b) := by
          rintro ⟨h1, h2⟩
          have htn : DML.TableName d = tnOf a b := by
            rw [DML.TableName, h1, h2]
          rw [htn, hmiss] at hc
          exact Option.noConfusion hc
        simp only [refreshGo, hc]
        rw [(ih cache hname').1 hmiss]
        simp [List.any_cons, hdfalse hneq]
      | none =>
        cases hfd : f d.database d.table with
        | none =>
          have hneq : ¬(d.database = a ∧ d.table = b) := by
            rintro ⟨h1, h2⟩
            rw [h1, h2] at hfd
            exact hf hfd
          simp only [refreshGo, hc, hfd]
          rw [List.count_cons, hpairfalse hneq]
          rw [(ih cache hname').1 hmiss]
          simp [List.any_cons, hdfalse hneq]
        | some ti =>
          by_cases hdab : d.database = a ∧ d.table = b
          · obtain ⟨h1, h2⟩ := hdab
            have htn : DML.TableName d = tnOf a b := by
              rw [DML.TableName, h1, h2]
            have hhit2 : cacheFind (tnOf a b) ((d.TableName, ti) :: cache) ≠ none := by
              rw [cacheFind_cons, if_pos htn]
              simp
            simp only [refreshGo, hc, hfd]
            rw [List.count_cons]
            rw [(ih ((d.TableName, ti) :: cache) hname').2 hhit2]
            have hpair : (((d.database, d.table) : String × String) == (a, b)) = true := by
              simp [h1, h2]
            rw [hpair]
            simp [List.any_cons, h1, h2]
          · have htn : DML.TableName d ≠ tnOf a b := by
              intro h
              exact hdab (hname d (List.mem_cons.mpr (Or.inl rfl)) h)
            have hmiss2 : cacheFind (tnOf a b) ((d.TableName, ti) :: cache) = none := by
              rw [cacheFind_cons, if_neg htn]
              exact hmiss
            simp only [refreshGo, hc, hfd]
            rw [List.count_cons, hpairfalse hdab]
            rw [(ih ((d.TableName, ti) :: cache) hname').1 hmiss2]
            simp [List.any_cons, hdfalse hdab]
    · intro hhit
      cases hc : cacheFind d.TableName cache with
      | some ti =>
        simp only [refreshGo, hc]
        exact (ih cache hname').2 hhit
      | none =>
        have htn : DML.TableName d ≠ tnOf a b := by
          intro h
          rw [h] at hc
          exact hhit hc
        have hneq : ¬(d.database = a ∧ d.table = b) := by
          rintro ⟨h1, h2⟩
          exact htn (by rw [DML.TableName, h1, h2])
        cases hfd : f d.database d.table with
        | none =>
          simp only [refreshGo, hc, hfd]
          rw [List.count_cons, hpairfalse hneq]
          rw [(ih cache hname').2 hhit]
          simp
        | some ti =>
          have hhit2 : cacheFind (tnOf a b) ((d.TableName, ti) :: cache) ≠ none := by
            rw [cacheFind_cons, if_neg htn]
            exact hhit
          simp only [refreshGo, hc, hfd]
          rw [List.count_cons, hpairfalse hneq]
          rw [(ih ((d.TableName, ti) :: cache) hname').2 hhit2]
          simp

/-- For a table whose refresh fails, the callback is invoked once per DML of
that table: the failure is never cached. -/
theorem refreshGo_calls_fail (f : String → String → Option TableInfo)
    (a b : String) (hf : f a b = none) :
    ∀ (l : List DML) (cache : List (String × TableInfo)),
      (∀ d ∈ l, DML.TableName d = tnOf a b → d.database = a ∧ d.table = b) →
      cacheFind (tnOf a b) cache = none →
      (refreshGo f cache l).2.count (a, b)
        = l.countP (fun d => d.database == a && d.table == b) := by
  intro l
  induction l with
  | nil =>
    intro cache _ _
    simp [refreshGo]
  | cons d rest ih =>
    intro cache hname hmiss
    have hname' : ∀ d' ∈ rest, DML.TableName d' = tnOf a b →
        d'.database = a ∧ d'.table = b :=
      fun d' h' => hname d' (List.mem_cons.mpr (Or.inr h'))
    cases hc : cacheFind d.TableName cache with
    | some ti =>
      have hneq : ¬(d.database = a ∧ d.table = b) := by
        rintro ⟨h1, h2⟩
        have htn : DML.TableName d = tnOf a b := by
          rw [DML.TableName, h1, h2]
        rw [htn, hmiss] at hc
        exact Option.noConfusion hc
      have hd : (d.database == a && d.table == b) = false := by
        by_cases hdb : d.database = a
        · by_cases htb : d.table = b
          · exact absurd ⟨hdb, htb⟩ hneq
          · simp [htb]
        · simp [hdb]
      simp only [refreshGo, hc]
      rw [ih cache hname' hmiss]
      simp [List.countP_cons, hd]
    | none =>
      cases hfd : f d.database d.table with
      | none =>
        simp only [refreshGo, hc, hfd]
        rw [List.count_cons, ih cache hname' hmiss, List.countP_cons]
        by_cases hdab : d.database = a ∧ d.table = b
        · obtain ⟨h1, h2⟩ := hdab
          have hpair : (((d.database, d.table) : String × String) == (a, b)) = true := by
            simp [h1, h2]
          have hd : (d.database == a && d.table == b) = true := by
            simp [h1, h2]
          rw [hpair, hd]
        · have hpair : (((d.database, d.table) : String × String) == (a, b)) = false := by
            simp only [beq_eq_false_iff_ne, ne_eq, Prod.mk.injEq, not_and]
            intro h1 h2
            exact hdab ⟨h1, h2⟩
          have hd : (d.database == a && d.table == b) = false := by
            by_cases hdb : d.database = a
            · by_cases htb : d.table = b
              · exact absurd ⟨hdb, htb⟩ hdab
              · simp [htb]
            · simp [hdb]
          rw [hpair, hd]
      | some ti =>
        have hneq : ¬(d.database = a ∧ d.table = b) := by
          rintro ⟨h1, h2⟩
          rw [h1, h2] at hfd
          rw [hf] at hfd
          exact Option.noConfusion hfd
        have htn : DML.TableName d ≠ tnOf a b := by
          intro h
          exact hneq (hname d (List.mem_cons.mpr (Or.inl rfl)) h)
        have hmiss2 : cacheFind (tnOf a b) ((d.TableName, ti) :: cache) = none := by
          rw [cacheFind_cons, if_neg htn]
          exact hmiss
        have hpair : (((d.database, d.table) : String × String) == (a, b)) = false := by
          simp only [beq_eq_false_iff_ne, ne_eq, Prod.mk.injEq, not_and]
          intro h1 h2
          exact hneq ⟨h1, h2⟩
        have hd : (d.database == a && d.table == b) = false := by
          by_cases hdb : d.database = a
          · by_cases htb : d.table = b
            · exact absurd ⟨hdb, htb⟩ hneq
            · simp [htb]
          · simp [hdb]
        simp only [refreshGo, hc, hfd]
        rw [List.count_cons, hpair, ih ((d.TableName, ti) :: cache) hname' hmiss2,
          List.countP_cons, hd]

/-- One refresh step satisfies the amended per-DML specification. -/
theorem refreshOne_spec (f : String → String → Option TableInfo) (d : DML) :
    c5RefreshSpecAmended f (d, refreshOne f d) = true := by
  cases hf : f d.database d.table with
  | none => simp [c5RefreshSpecAmended, refreshOne, hf]
  | some fresh =>
    by_cases hlen : d.info.columns.length = fresh.columns.length
    · simp [c5RefreshSpecAmended, refreshOne, applyInfo, hf, hlen]
    · simp [c5RefreshSpecAmended, refreshOne, applyInfo, removeOrphanCols, hf, hlen]

/-- C5 counterexample: on a batch with two DMLs of table `t` (whose refresh
fails) and one DML of table `u` (whose fresh column list differs from the
cached one at equal length), the refresh callback is invoked twice for `t`
and the extraneous column of the `u` DML is not removed — the claim as
stated fails. -/
theorem c5_refresh_counterexample : ¬ c5ClaimAt c5f [dT, dT, dU] := by
  unfold c5ClaimAt
  decide

/-- C5 (amended): when the attempt fails with the missing-column code, a
callback is configured and table names do not collide, each DML is rewritten
independently (a failed refresh keeps the stale schema, a successful one
rebinds the info and removes extraneous columns exactly when the column-list
lengths differ), the callback runs once per distinct successfully-refreshed
table but once per DML of a table whose refresh fails, and the attempt's
error is still returned. -/
theorem c5_refresh_amended (f : String → String → Option TableInfo)
    (dmls : List DML)
    (hinj : ∀ d₁ ∈ dmls, ∀ d₂ ∈ dmls, DML.TableName d₁ = DML.TableName d₂ →
      d₁.database = d₂.database ∧ d₁.table = d₂.table) :
    (singleExecAttempt (some f) (some ⟨some errColumnNotExistsCode⟩) dmls).1
      = dmls.map (refreshOne f)
    ∧ (∀ p ∈ dmls.zip
          (singleExecAttempt (some f) (some ⟨some errColumnNotExistsCode⟩) dmls).1,
        c5RefreshSpecAmended f p = true)
    ∧ (∀ d ∈ dmls, f d.database d.table ≠ none →
        (singleExecAttempt (some f) (some ⟨some errColumnNotExistsCode⟩) dmls).2.1.count
          (d.database, d.table) = 1)
    ∧ (∀ d ∈ dmls, f d.database d.table = none →
        (singleExecAttempt (some f) (some ⟨some errColumnNotExistsCode⟩) dmls).2.1.count
          (d.database, d.table)
          = dmls.countP (fun d' => d'.database == d.database && d'.table == d.table))
    ∧ (singleExecAttempt (some f) (some ⟨some errColumnNotExistsCode⟩) dmls).2.2
        = some ⟨some errColumnNotExistsCode⟩ := by
  have hred : singleExecAttempt (some f) (some ⟨some errColumnNotExistsCode⟩) dmls
      = ((refreshGo f [] dmls).1, (refreshGo f [] dmls).2,
         some ⟨some errColumnNotExistsCode⟩) := rfl
  have hfst : (refreshGo f [] dmls).1 = dmls.map (refreshOne f) := by
    apply refreshGo_fst f dmls [] hinj
    intro d _ ti h
    exact Option.noConfusion h
  refine ⟨?_, ?_, ?_, ?_, ?_⟩
  · rw [hred]
    exact hfst
  · intro p hp
    rw [hred] at hp
    simp only at hp
    rw [hfst] at hp
    have h2 := mem_zip_map (refreshOne f) dmls p hp
    have hpeq : p = (p.1, refreshOne f p.1) := by
      obtain ⟨p1, p2⟩ := p
      simp only at h2
      rw [h2]
    rw [hpeq]
    exact refreshOne_spec f p.1
  · intro d hd hfd
    rw [hred]
    have hname : ∀ d' ∈ dmls, DML.TableName d' = tnOf d.database d.table →
        d'.database = d.database ∧ d'.table = d.table := by
      intro d' h' htn
      exact hinj d' h' d hd htn
    have h1 := (refreshGo_calls_success f d.database d.table hfd dmls [] hname).1
      (cacheFind_nil _)
    have hany : dmls.any (fun d' => d'.database == d.database && d'.table == d.table)
        = true :=
      List.any_eq_true.mpr ⟨d, hd, by simp⟩
    simp only at h1 ⊢
    rw [h1, hany]
    rfl
  · intro d hd hfd
    rw [hred]
    have hname : ∀ d' ∈ dmls, DML.TableName d' = tnOf d.database d.table →
        d'.database = d.database ∧ d'.table = d.table := by
      intro d' h' htn
      exact hinj d' h' d hd htn
    have h1 := refreshGo_calls_fail f d.database d.table hfd dmls [] hname
      (cacheFind_nil _)
    simp only at h1 ⊢
    rw [h1]
  · rw [hred]

/-- C5 witness for the amended claim: concrete batch with a failing table and
a successfully refreshed one. -/
theorem c5_refresh_amended_witness :
    (∀ d₁ ∈ [dT, dT, dU], ∀ d₂ ∈ [dT, dT, dU],
      DML.TableName d₁ = DML.TableName d₂ →
      d₁.database = d₂.database ∧ d₁.table = d₂.table)
    ∧ ((singleExecAttempt (some c5f) (some ⟨some errColumnNotExistsCode⟩) [dT, dT, dU]).1
        = [dT, dT, dU].map (refreshOne c5f)
      ∧ (∀ p ∈ [dT, dT, dU].zip
            (singleExecAttempt (some c5f) (some ⟨some errColumnNotExistsCode⟩)
              [dT, dT, dU]).1,
          c5RefreshSpecAmended c5f p = true)
      ∧ (∀ d ∈ [dT, dT, dU], c5f d.database d.table ≠ none →
          (singleExecAttempt (some c5f) (some ⟨some errColumnNotExistsCode⟩)
            [dT, dT, dU]).2.1.count (d.database, d.table) = 1)
      ∧ (∀ d ∈ [dT, dT, dU], c5f d.database d.table = none →
          (singleExecAttempt (some c5f) (some ⟨some errColumnNotExistsCode⟩)
            [dT, dT, dU]).2.1.count (d.database, d.table)
            = [dT, dT, dU].countP
                (fun d' => d'.database == d.database && d'.table == d.table))
      ∧ (singleExecAttempt (some c5f) (some ⟨some errColumnNotExistsCode⟩)
          [dT, dT, dU]).2.2 = some ⟨some errColumnNotExistsCode⟩) :=
  ⟨by decide, c5_refresh_amended c5f [dT, dT, dU] (by decide)⟩

end TidbBinlog
